import Mathlib

/-!
Verification of the 3DS exporter (`io_scene_3ds/export_3ds.py`).

The development shallowly embeds the exporter's data structures and
algorithms:

* the chunk tree (`_3ds_chunk` and the primitive field codecs) with its
  `get_size`, `write` and `validate` operations;
* the vertex/UV deduplication algorithm `remove_face_uv`;
* the keyframe sampling pipeline of `make_track_chunk`,
  `make_target_node` and `make_ambient_node`;
* the aim-target trigonometric derivation;
* the name sanitizer `sane_name`;
* the tail of `save` (ambient emission, object validation, teardown).

Machine floats are modelled as exact rationals or reals where the value
matters and as opaque 4-byte payloads where only the byte count matters.
-/

namespace ThreeDS

/-- An IEEE-754 single precision payload, kept as its four raw bytes:
`struct.pack` of a float always produces exactly four bytes, and none of
the verified properties depends on the float encoding itself. -/
structure F32 where
  b0 : Nat
  b1 : Nat
  b2 : Nat
  b3 : Nat
deriving DecidableEq, Repr

/-- Little-endian bytes of `struct.pack` format `<H` (2-byte unsigned). -/
def bytes2 (v : Nat) : List Nat := [v % 256, v / 256 % 256]

/-- Little-endian bytes of `struct.pack` format `<I` (4-byte unsigned). -/
def bytes4 (v : Nat) : List Nat :=
  [v % 256, v / 256 % 256, v / 65536 % 256, v / 16777216 % 256]

/-- Python `int()` applied to a rational: truncation toward zero. -/
def pyInt (q : ℚ) : ℤ := if q < 0 then ⌈q⌉ else ⌊q⌋

/-- The bytes of an `F32` payload (`struct.pack` format `<f`). -/
def F32.write (f : F32) : List Nat := [f.b0, f.b1, f.b2, f.b3]

/-- Items stored in `_3ds_array` fields: the source only ever stores
`_3ds_ushort`, `_3ds_point_3d`, `_3ds_point_uv` and `_3ds_face` values in
arrays. -/
inductive Elem where
  | ushort (v : Nat)
  | point3d (x y z : F32)
  | pointUV (u v : F32)
  | face (v0 v1 v2 flag : Nat)
deriving DecidableEq, Repr

/-- `get_size` of an array item, from the corresponding Python classes. -/
def Elem.get_size : Elem → Nat
  | .ushort _ => 2
  | .point3d _ _ _ => 3 * 4
  | .pointUV _ _ => 2 * 4
  | .face _ _ _ _ => 4 * 2

/-- `write` of an array item, from the corresponding Python classes. -/
def Elem.write : Elem → List Nat
  | .ushort v => bytes2 v
  | .point3d x y z => x.write ++ y.write ++ z.write
  | .pointUV u v => u.write ++ v.write
  | .face v0 v1 v2 flag => bytes2 v0 ++ bytes2 v1 ++ bytes2 v2 ++ bytes2 flag

/-- Primitive field values of a chunk, one constructor per `_3ds_*`
codec class of the source.  `rgbColor` keeps its channels as exact
rationals because its byte encoding (`int(255 * channel)`) is itself a
verified property; the other float-valued codecs only ever contribute
their byte count, so they carry opaque `F32` payloads. -/
inductive Prim where
  | ushort (v : Nat)
  | uint (v : Nat)
  | float32 (f : F32)
  | str (s : List Nat)
  | point3d (x y z : F32)
  | point4d (w x y z : F32)
  | pointUV (u v : F32)
  | floatColor (r g b : F32)
  | rgbColor (r g b : ℚ)
  | face (v0 v1 v2 flag : Nat)
  | arr (items : List Elem)

/-- `get_size` of a primitive field.  The `arr` case mirrors
`_3ds_array.size`, which starts at `SZ_SHORT` and adds `item.get_size()`
for every added item. -/
def Prim.get_size : Prim → Nat
  | .ushort _ => 2
  | .uint _ => 4
  | .float32 _ => 4
  | .str s => s.length + 1
  | .point3d _ _ _ => 3 * 4
  | .point4d _ _ _ _ => 4 * 4
  | .pointUV _ _ => 2 * 4
  | .floatColor _ _ _ => 3 * 4
  | .rgbColor _ _ _ => 3
  | .face _ _ _ _ => 4 * 2
  | .arr items => 2 + (items.map Elem.get_size).sum

/-- One byte of the `_3ds_rgb_color` encoding: `int(255 * channel)`
packed with `struct` format `B`. -/
def rgbByte (c : ℚ) : Nat := (pyInt (255 * c)).toNat % 256

/-- `write` of a primitive field.  `str` appends the terminating NUL of
format `<%ds` with length `len + 1`; `arr` writes the 16-bit item count
followed by the items; `rgbColor` writes `int(255 * channel)` bytes. -/
def Prim.write : Prim → List Nat
  | .ushort v => bytes2 v
  | .uint v => bytes4 v
  | .float32 f => f.write
  | .str s => s ++ [0]
  | .point3d x y z => x.write ++ y.write ++ z.write
  | .point4d w x y z => w.write ++ x.write ++ y.write ++ z.write
  | .pointUV u v => u.write ++ v.write
  | .floatColor r g b => r.write ++ g.write ++ b.write
  | .rgbColor r g b => [rgbByte r, rgbByte g, rgbByte b]
  | .face v0 v1 v2 flag => bytes2 v0 ++ bytes2 v1 ++ bytes2 v2 ++ bytes2 flag
  | .arr items => bytes2 items.length ++ (items.map Elem.write).flatten

/-- `_3ds_array.validate`: at most 65535 items.  Every other codec class
has no `validate` attribute, so `_3ds_chunk.validate` skips it. -/
def Prim.validate : Prim → Bool
  | .arr items => items.length ≤ 65535
  | _ => true

mutual

/-- `_3ds_chunk`: tag, stored size (a mutable cell in the source, an
explicit component here), named variables (a `None` value writes and
counts nothing, mirroring `_3ds_named_variable`), subchunks. -/
inductive Chunk where
  | mk (id : Nat) (size : Nat) (vars : List (Option Prim)) (subs : ChunkList)

/-- The subchunk list, as a mutual inductive so that recursion over the
tree stays structural. -/
inductive ChunkList where
  | nil
  | cons (c : Chunk) (cs : ChunkList)

end

/-- `_3ds_named_variable.get_size`: 0 for a `None` value. -/
def varSize : Option Prim → Nat
  | none => 0
  | some p => p.get_size

/-- Sum of the variables' sizes, the field part of `get_size`. -/
def varsSize (vs : List (Option Prim)) : Nat := (vs.map varSize).sum

/-- `_3ds_named_variable.write`: nothing for a `None` value. -/
def varWrite : Option Prim → List Nat
  | none => []
  | some p => p.write

/-- Concatenated bytes of the variables. -/
def varsWrite (vs : List (Option Prim)) : List Nat := (vs.map varWrite).flatten

mutual

/-- `_3ds_chunk.get_size`: computes `2 + 4 + Σ var sizes + Σ child
sizes`, stores it in the chunk's size cell (here: returns the updated
tree) and returns it. -/
def Chunk.get_size : Chunk → Chunk × Nat
  | .mk id _ vars subs =>
      let s := ChunkList.get_size subs
      let n := 2 + 4 + varsSize vars + s.2
      (.mk id n vars s.1, n)

/-- `get_size` mapped over a subchunk list, returning the updated list
and the total of the children's sizes. -/
def ChunkList.get_size : ChunkList → ChunkList × Nat
  | .nil => (.nil, 0)
  | .cons c cs =>
      let a := Chunk.get_size c
      let b := ChunkList.get_size cs
      (.cons a.1 b.1, a.2 + b.2)

end

mutual

/-- `_3ds_chunk.write`: 2-byte tag, 4-byte stored size, the variables in
order, then each subchunk's full subtree in order. -/
def Chunk.write : Chunk → List Nat
  | .mk id size vars subs => bytes2 id ++ bytes4 size ++ varsWrite vars ++ ChunkList.write subs

/-- `write` concatenated over a subchunk list. -/
def ChunkList.write : ChunkList → List Nat
  | .nil => []
  | .cons c cs => Chunk.write c ++ ChunkList.write cs

end

mutual

/-- `_3ds_chunk.validate`: every array-typed variable holds at most
65535 items and every subchunk validates. -/
def Chunk.validate : Chunk → Bool
  | .mk _ _ vars subs =>
      vars.all (fun v => match v with | none => true | some p => p.validate) &&
      ChunkList.validate subs

/-- `validate` over a subchunk list. -/
def ChunkList.validate : ChunkList → Bool
  | .nil => true
  | .cons c cs => Chunk.validate c && ChunkList.validate cs

end

/-- The stored size component of a chunk. -/
def Chunk.storedSize : Chunk → Nat
  | .mk _ n _ _ => n

/-- The variables of a chunk. -/
def Chunk.vars : Chunk → List (Option Prim)
  | .mk _ _ v _ => v

/-- The subchunks of a chunk. -/
def Chunk.subs : Chunk → ChunkList
  | .mk _ _ _ s => s

/-- Sum of the stored sizes over a subchunk list. -/
def ChunkList.sizesSum : ChunkList → Nat
  | .nil => 0
  | .cons c cs => c.storedSize + cs.sizesSum

theorem bytes2_length (v : Nat) : (bytes2 v).length = 2 := rfl

theorem bytes4_length (v : Nat) : (bytes4 v).length = 4 := rfl

theorem F32.write_len4 (f : F32) : f.write.length = 4 := rfl

theorem Elem.elemWrite_size (e : Elem) : e.write.length = e.get_size := by
  cases e <;> simp [Elem.write, Elem.get_size, bytes2, F32.write]

theorem Prim.write_size (p : Prim) : p.write.length = p.get_size := by
  cases p with
  | str s => simp [Prim.write, Prim.get_size]
  | arr items =>
      simp only [Prim.write, Prim.get_size, List.length_append, bytes2_length,
        List.length_flatten, List.map_map]
      congr 1
      refine congrArg List.sum ?_
      refine List.map_congr_left ?_
      intro e _
      exact Elem.elemWrite_size e
  | _ => simp [Prim.write, Prim.get_size, bytes2, bytes4, F32.write]

theorem varWrite_length (v : Option Prim) : (varWrite v).length = varSize v := by
  cases v with
  | none => rfl
  | some p => exact Prim.write_size p

theorem varsWrite_length (vs : List (Option Prim)) :
    (varsWrite vs).length = varsSize vs := by
  simp only [varsWrite, varsSize, List.length_flatten, List.map_map]
  refine congrArg List.sum ?_
  refine List.map_congr_left ?_
  intro v _
  exact varWrite_length v

mutual

theorem Chunk.get_size_snd_eq : ∀ c : Chunk,
    (Chunk.get_size c).2 = 6 + varsSize c.vars + (ChunkList.get_size c.subs).2
  | .mk id sz vars subs => by
      simp only [Chunk.get_size, Chunk.vars, Chunk.subs]

theorem ChunkList.get_size_sizesSum : ∀ cs : ChunkList,
    ((ChunkList.get_size cs).1).sizesSum = (ChunkList.get_size cs).2
  | .nil => rfl
  | .cons c cs => by
      simp only [ChunkList.get_size, ChunkList.sizesSum]
      rw [ChunkList.get_size_sizesSum cs]
      cases c with
      | mk id sz vars subs => simp [Chunk.get_size, Chunk.storedSize]

end

theorem Chunk.get_size_storedSize (c : Chunk) :
    ((Chunk.get_size c).1).storedSize = (Chunk.get_size c).2 := by
  cases c with
  | mk id sz vars subs => simp [Chunk.get_size, Chunk.storedSize]

theorem Chunk.get_size_vars (c : Chunk) :
    ((Chunk.get_size c).1).vars = c.vars := by
  cases c with
  | mk id sz vars subs => simp [Chunk.get_size, Chunk.vars]

theorem Chunk.get_size_subs (c : Chunk) :
    ((Chunk.get_size c).1).subs = (ChunkList.get_size c.subs).1 := by
  cases c with
  | mk id sz vars subs => simp [Chunk.get_size, Chunk.subs]

mutual

theorem Chunk.write_get_size_length : ∀ c : Chunk,
    ((Chunk.get_size c).1).write.length = (Chunk.get_size c).2
  | .mk id sz vars subs => by
      simp only [Chunk.get_size, Chunk.write, List.length_append, bytes2_length,
        bytes4_length, varsWrite_length]
      rw [ChunkList.writeList_get_size_length subs]

theorem ChunkList.writeList_get_size_length : ∀ cs : ChunkList,
    (ChunkList.write (ChunkList.get_size cs).1).length = (ChunkList.get_size cs).2
  | .nil => rfl
  | .cons c cs => by
      simp only [ChunkList.get_size, ChunkList.write, List.length_append]
      rw [Chunk.write_get_size_length c, ChunkList.writeList_get_size_length cs]

end

/-- C1: after `get_size()` runs on a chunk, the stored size of every
chunk in the resulting tree equals `6 + Σ field byte-lengths + Σ child
stored sizes`, and `write()` emits exactly `storedSize` bytes for the
whole subtree.  The statement quantifies over all chunk trees, so it
applies to every subchunk of a sized tree as well (the children of a
sized tree are themselves `get_size` images of the original children). -/
theorem claim1_chunk_size_invariant (c : Chunk) :
    ((Chunk.get_size c).1).storedSize
        = 6 + varsSize ((Chunk.get_size c).1).vars + ((Chunk.get_size c).1).subs.sizesSum ∧
    ((Chunk.get_size c).1).write.length = ((Chunk.get_size c).1).storedSize := by
  constructor
  · rw [Chunk.get_size_storedSize, Chunk.get_size_vars, Chunk.get_size_subs,
      ChunkList.get_size_sizesSum]
    exact Chunk.get_size_snd_eq c
  · rw [Chunk.get_size_storedSize]
    exact Chunk.write_get_size_length c

/-! ### Claim 5: `validate` and the object-inclusion loop of `save` -/

/-- Spec-side predicate: a primitive field is an array holding more than
65535 elements. -/
def Prim.oversized : Prim → Bool
  | .arr items => 65535 < items.length
  | _ => false

mutual

/-- Spec-side predicate: some array-typed field anywhere in the chunk's
subtree holds more than 65535 elements. -/
def Chunk.hasOversized : Chunk → Bool
  | .mk _ _ vars subs =>
      vars.any (fun v => match v with | none => false | some p => p.oversized) ||
      ChunkList.hasOversized subs

/-- `hasOversized` over a subchunk list. -/
def ChunkList.hasOversized : ChunkList → Bool
  | .nil => false
  | .cons c cs => Chunk.hasOversized c || ChunkList.hasOversized cs

end

theorem Prim.validate_eq_not_oversized (p : Prim) : p.validate = !p.oversized := by
  cases p <;> try rfl
  case arr items =>
    by_cases h : items.length ≤ 65535
    · simp [Prim.validate, Prim.oversized, h, Nat.not_lt.mpr h]
    · simp [Prim.validate, Prim.oversized, h, Nat.not_le.mp h]

theorem varValidate_eq (v : Option Prim) :
    (match v with | none => true | some p => p.validate)
      = !(match v with | none => false | some p => p.oversized) := by
  cases v with
  | none => rfl
  | some p => exact Prim.validate_eq_not_oversized p

theorem varsAll_validate (vs : List (Option Prim)) :
    (vs.all fun v => match v with | none => true | some p => p.validate)
      = !(vs.any fun v => match v with | none => false | some p => p.oversized) := by
  induction vs with
  | nil => rfl
  | cons v vs ih =>
      simp only [List.all_cons, List.any_cons, Bool.not_or, ih, varValidate_eq v]

mutual

theorem Chunk.validate_eq_not_hasOversized : ∀ c : Chunk,
    Chunk.validate c = !Chunk.hasOversized c
  | .mk id sz vars subs => by
      simp only [Chunk.validate, Chunk.hasOversized, Bool.not_or]
      rw [ChunkList.validateList_eq_not_hasOversized subs, varsAll_validate]

theorem ChunkList.validateList_eq_not_hasOversized : ∀ cs : ChunkList,
    ChunkList.validate cs = !ChunkList.hasOversized cs
  | .nil => rfl
  | .cons c cs => by
      simp only [ChunkList.validate, ChunkList.hasOversized, Bool.not_or]
      rw [Chunk.validate_eq_not_hasOversized c, ChunkList.validateList_eq_not_hasOversized cs]

end

/-- The object-inclusion loop of `save` (lines 1627-1641): each object
chunk is appended to the OBJECTINFO subchunks when it validates and
otherwise produces one warning report, and the loop continues with the
remaining objects either way.  The result is the list of included
chunks and the number of warnings. -/
def saveObjects (objs : List Chunk) : List Chunk × Nat :=
  objs.foldl
    (fun acc oc => if oc.validate then (acc.1 ++ [oc], acc.2) else (acc.1, acc.2 + 1))
    ([], 0)

theorem saveObjects_go (objs : List Chunk) : ∀ acc : List Chunk × Nat,
    objs.foldl
      (fun acc oc => if oc.validate then (acc.1 ++ [oc], acc.2) else (acc.1, acc.2 + 1))
      acc
    = (acc.1 ++ objs.filter Chunk.validate,
       acc.2 + (objs.filter (fun oc => !oc.validate)).length) := by
  induction objs with
  | nil => intro acc; simp
  | cons o objs ih =>
      intro acc
      simp only [List.foldl_cons, List.filter_cons]
      by_cases h : o.validate = true
      · simp [h, ih, List.append_assoc]
      · simp only [h, if_false, Bool.not_true, ih, Bool.not_false]
        simp [h, Prod.ext_iff]
        omega

/-- C5: `validate()` returns false exactly when some array-typed field
in the subtree holds more than 65535 elements; in the export loop a
failing object chunk is omitted from OBJECTINFO (producing one warning)
while every validating object chunk is included, in order, regardless of
failures elsewhere in the list. -/
theorem claim5_validate_and_skip (c : Chunk) (objs : List Chunk) :
    (Chunk.validate c = false ↔ Chunk.hasOversized c = true) ∧
    (saveObjects objs).1 = objs.filter Chunk.validate ∧
    (saveObjects objs).2 = (objs.filter (fun oc => !oc.validate)).length := by
  refine ⟨?_, ?_, ?_⟩
  · rw [Chunk.validate_eq_not_hasOversized c]
    cases Chunk.hasOversized c <;> simp
  · rw [saveObjects, saveObjects_go]; simp
  · rw [saveObjects, saveObjects_go]; simp

/-! ### Claim 7: the 3-byte RGB encoding -/

/-- The byte the claim says each channel encodes to:
`round(255 * channel)` (round half away from even or up does not matter
for the counterexample; Mathlib's `round` rounds halves up). -/
def claimedRgbByte (c : ℚ) : Nat := (round (255 * c)).toNat

/-- C7 counterexample: for the color `(1/2, 0, 0)` — channels inside the
unit interval — the code writes `int(255 * 0.5) = 127` while the claim's
`round(255 * 0.5) = 128`. -/
theorem claim7_counterexample :
    Prim.write (.rgbColor (1/2) 0 0)
      ≠ [claimedRgbByte (1/2), claimedRgbByte 0, claimedRgbByte 0] := by
  have h127 : rgbByte (1/2) = 127 := by
    have : ((255:ℚ) * (1/2)) = 255/2 := by norm_num
    rw [rgbByte, pyInt, this]
    norm_num
    decide
  have h128 : claimedRgbByte (1/2) = 128 := by
    rw [claimedRgbByte]
    norm_num [round_eq]
    decide
  simp only [Prim.write, h127, h128, ne_eq, List.cons.injEq]
  omega

/-- C7 amended: for channels in the unit interval the 3-byte RGB
encoding writes, for each channel independently, the byte
`⌊255 * channel⌋` (truncation, which coincides with the floor on
non-negative values), not the nearest integer. -/
theorem claim7_amended_rgb_floor (r g b : ℚ)
    (hr : 0 ≤ r ∧ r ≤ 1) (hg : 0 ≤ g ∧ g ≤ 1) (hb : 0 ≤ b ∧ b ≤ 1) :
    Prim.write (.rgbColor r g b)
      = [(⌊255 * r⌋).toNat, (⌊255 * g⌋).toNat, (⌊255 * b⌋).toNat] := by
  have key : ∀ c : ℚ, 0 ≤ c → c ≤ 1 → rgbByte c = (⌊255 * c⌋).toNat := by
    intro c h0 h1
    have hnn : (0:ℚ) ≤ 255 * c := by positivity
    have hfl : (0:ℤ) ≤ ⌊255 * c⌋ := Int.floor_nonneg.mpr hnn
    have hle : (255:ℚ) * c ≤ 255 := by nlinarith
    have hub : ⌊(255:ℚ) * c⌋ ≤ 255 := by
      have := Int.floor_le_floor (α := ℚ) hle
      simpa using this
    have hlt : (⌊255 * c⌋).toNat < 256 := by omega
    rw [rgbByte, pyInt, if_neg (not_lt.mpr hnn), Nat.mod_eq_of_lt hlt]
  rw [Prim.write, key r hr.1 hr.2, key g hg.1 hg.2, key b hb.1 hb.2]

/-- Witness for the amended C7 at the concrete color `(1/2, 0, 1)`. -/
theorem claim7_amended_witness :
    Prim.write (.rgbColor (1/2) 0 1) = [127, 0, 255] := by
  have h := claim7_amended_rgb_floor (1/2) 0 1
    (by constructor <;> norm_num) (by constructor <;> norm_num)
    (by constructor <;> norm_num)
  rw [h]
  norm_num
  decide

/-! ### Claim 3: the aim-target trigonometric derivation

Machine floats are idealised as real numbers here; the derivation is
pure arithmetic on `math.tan`, `math.sqrt`, `math.copysign` and
`math.radians`. -/

/-- A 3-component real vector (an object position or Euler rotation). -/
structure Vec3 where
  x : ℝ
  y : ℝ
  z : ℝ

/-- `math.copysign(x, y)`: the magnitude of `x` with the sign of `y`
(non-negative `y` gives `+|x|`). -/
noncomputable def copysign (x y : ℝ) : ℝ := if y < 0 then -|x| else |x|

/-- `math.radians(d)`: degrees to radians. -/
noncomputable def radians (d : ℝ) : ℝ := d * (Real.pi / 180)

/-- The aim-target position computed by `make_target_node`
(lines 1363-1366, repeated per animation sample at lines 1395-1398):
`diagonal = copysign(sqrt(x² + y²), y)`, then
`(x + y·tan(rz), y + x·tan(radians(90) − rz), −1·diagonal·tan(radians(90) − rx))`. -/
noncomputable def targetNodePos (pos rot : Vec3) : Vec3 :=
  let diagonal := copysign (Real.sqrt (pos.x ^ 2 + pos.y ^ 2)) pos.y
  ⟨pos.x + pos.y * Real.tan rot.z,
   pos.y + pos.x * Real.tan (radians 90 - rot.z),
   -1 * diagonal * Real.tan (radians 90 - rot.x)⟩

/-- The spotlight aim target computed in the plain-light branch of
`save` (lines 1670-1673): same `x`/`y` derivation, but
`pos_z = +hypo·tan(radians(90) − rx)`. -/
noncomputable def spotChunkTargetPos (pos rot : Vec3) : Vec3 :=
  let hypo := copysign (Real.sqrt (pos.x ^ 2 + pos.y ^ 2)) pos.y
  ⟨pos.x + pos.y * Real.tan rot.z,
   pos.y + pos.x * Real.tan (radians 90 - rot.z),
   hypo * Real.tan (radians 90 - rot.x)⟩

/-- The camera focus target computed in the camera branch of `save`
(lines 1707-1710): identical to the spotlight data-chunk derivation,
including the positive `z` sign. -/
noncomputable def cameraChunkTargetPos (pos rot : Vec3) : Vec3 :=
  let diagonal := copysign (Real.sqrt (pos.x ^ 2 + pos.y ^ 2)) pos.y
  ⟨pos.x + pos.y * Real.tan rot.z,
   pos.y + pos.x * Real.tan (radians 90 - rot.z),
   diagonal * Real.tan (radians 90 - rot.x)⟩

/-- Spec-side formula: `diag = copysign(sqrt(x² + y²), y)`. -/
noncomputable def specDiag (pos : Vec3) : ℝ :=
  copysign (Real.sqrt (pos.x ^ 2 + pos.y ^ 2)) pos.y

/-- Spec-side formula: `target_x = x + y·tan(rz)`. -/
noncomputable def specTargetX (pos rot : Vec3) : ℝ := pos.x + pos.y * Real.tan rot.z

/-- Spec-side formula: `target_y = y + x·tan(π/2 − rz)`. -/
noncomputable def specTargetY (pos rot : Vec3) : ℝ :=
  pos.y + pos.x * Real.tan (Real.pi / 2 - rot.z)

/-- Spec-side formula: `target_z = −diag·tan(π/2 − rx)`. -/
noncomputable def specTargetZneg (pos rot : Vec3) : ℝ :=
  -(specDiag pos * Real.tan (Real.pi / 2 - rot.x))

/-- Spec-side formula: `target_z = +diag·tan(π/2 − rx)`. -/
noncomputable def specTargetZpos (pos rot : Vec3) : ℝ :=
  specDiag pos * Real.tan (Real.pi / 2 - rot.x)

theorem radians_ninety : radians 90 = Real.pi / 2 := by
  rw [radians]; ring

/-- C3: the camera/spot target nodes built by `make_target_node` derive
the aim point as `(x + y·tan(rz), y + x·tan(π/2 − rz), −diag·tan(π/2 − rx))`
with `diag = copysign(sqrt(x² + y²), y)`, while the OBJECTINFO data
chunks — the spotlight target of the plain-light branch (lights have no
target object) and the camera focus point — use the opposite sign
`+diag·tan(π/2 − rx)` for the `z` component and the same `x`/`y`
formulas. -/
theorem claim3_target_derivation (pos rot : Vec3) :
    targetNodePos pos rot
        = ⟨specTargetX pos rot, specTargetY pos rot, specTargetZneg pos rot⟩ ∧
    spotChunkTargetPos pos rot
        = ⟨specTargetX pos rot, specTargetY pos rot, specTargetZpos pos rot⟩ ∧
    cameraChunkTargetPos pos rot
        = ⟨specTargetX pos rot, specTargetY pos rot, specTargetZpos pos rot⟩ := by
  refine ⟨?_, ?_, ?_⟩ <;>
    simp only [targetNodePos, spotChunkTargetPos, cameraChunkTargetPos, specTargetX,
      specTargetY, specTargetZneg, specTargetZpos, specDiag, radians_ninety,
      Vec3.mk.injEq] <;>
    exact ⟨trivial, trivial, by ring⟩

/-! ### Claims 4 and 10: keyframe time sampling

`make_track_chunk`, the animated branch of `make_target_node` and
`make_ambient_node` all select their sample times with the same code:

```
kframes = [kf.co[0] for kf in [fc for fc in fcurves if fc is not None][0].keyframe_points]
nkeys = len(kframes)
if not 0 in kframes:
    kframes.append(0)
    nkeys += 1
kframes = sorted(set(kframes))
```

Keyframe times (Python floats) are modelled as exact rationals; the
per-channel value derivation is abstracted as a function `ℚ → V`, since
the claims here concern the time set and the static fallback only. -/

/-- A Blender f-curve as consumed by the exporter: its `data_path`, the
times of its authored keyframe points (`kf.co[0]`), and its `evaluate`
method. -/
structure FCurve (V : Type) where
  data_path : String
  keyframe_points : List ℚ
  evalAt : ℚ → V

/-- `[fc for fc in fcurves if fc is not None][0]`, as an `Option`:
`none` models the `IndexError` raised when every entry is `None`. -/
def firstCurve {V : Type} (fcurves : List (Option (FCurve V))) : Option (FCurve V) :=
  (fcurves.filterMap id).head?

/-- `if not 0 in kframes: kframes.append(0)`. -/
def insertZero (ks : List ℚ) : List ℚ := if 0 ∈ ks then ks else ks ++ [0]

/-- `sorted(set(kframes))`: the ascending enumeration of the distinct
elements. -/
def sortedSet (ks : List ℚ) : List ℚ := ks.dedup.mergeSort (· ≤ ·)

/-- `nkeys`: the authored count, plus one when 0 was force-inserted. -/
def nkeysOf (ks : List ℚ) : Nat := ks.length + (if 0 ∈ ks then 0 else 1)

/-- The sample-time selection shared by all three track builders, keyed
on the first non-`None` f-curve (`none` when that lookup would raise). -/
def trackKframes {V : Type} (fcurves : List (Option (FCurve V))) : Option (List ℚ) :=
  (firstCurve fcurves).map (fun fc => sortedSet (insertZero fc.keyframe_points))

/-- The sample-time selection of the animated branch of
`make_target_node` (lines 1375-1380): textually the same computation. -/
def targetNodeKframes {V : Type} (fcurves : List (Option (FCurve V))) : Option (List ℚ) :=
  (firstCurve fcurves).map (fun fc => sortedSet (insertZero fc.keyframe_points))

/-- The sample-time selection of `make_ambient_node` (lines 1442-1447):
textually the same computation. -/
def ambientNodeKframes {V : Type} (fcurves : List (Option (FCurve V))) : Option (List ℚ) :=
  (firstCurve fcurves).map (fun fc => sortedSet (insertZero fc.keyframe_points))

/-- The outcome of `make_track_chunk` for one channel, reduced to the
data the track claims are about: `none` models the `IndexError` path;
`some none` is the empty chunk produced when the action has no f-curves;
`some (some (nkeys, keys))` carries the emitted key count and the
`(tcb_frame, value)` records in emission order. -/
def make_track_chunk {V : Type} (hasAction : Bool) (fcurves : List (Option (FCurve V)))
    (chEval : ℚ → V) (cur : V) : Option (Option (Nat × List (ℚ × V))) :=
  if hasAction then
    if fcurves.isEmpty then some none
    else
      match firstCurve fcurves with
      | none => none
      | some fc =>
          let ks := fc.keyframe_points
          some (some (nkeysOf ks, (sortedSet (insertZero ks)).map (fun f => (f, chEval f))))
  else
    some (some (1, [(0, cur)]))

theorem sortedSet_sorted (ks : List ℚ) : (sortedSet ks).Sorted (· < ·) := by
  have hperm : (sortedSet ks).Perm ks.dedup := List.mergeSort_perm ks.dedup _
  have hnd : (sortedSet ks).Nodup := hperm.nodup_iff.mpr (List.nodup_dedup ks)
  have hle : (sortedSet ks).Sorted (· ≤ ·) := List.sorted_mergeSort' ks.dedup
  exact hle.lt_of_le hnd

theorem sortedSet_mem (ks : List ℚ) (q : ℚ) : q ∈ sortedSet ks ↔ q ∈ ks := by
  unfold sortedSet
  rw [(List.mergeSort_perm ks.dedup _).mem_iff, List.mem_dedup]

theorem insertZero_mem_zero (ks : List ℚ) : (0:ℚ) ∈ insertZero ks := by
  unfold insertZero
  by_cases h : (0:ℚ) ∈ ks
  · simp [h]
  · simp [h]

theorem map_fst_pair {V : Type} (g : ℚ → V) (l : List ℚ) :
    (l.map (fun f => (f, g f))).map Prod.fst = l := by
  induction l with
  | nil => rfl
  | cons a l ih => simp [ih]

/-- C4: when a driving f-curve exists the emitted samples are strictly
ascending in time (hence duplicate-free) and include time 0, and their
times are exactly `sorted(set(authored times ∪ {0}))`; without a curve
the static branch emits exactly one keyframe at time 0 carrying the
object's current value, with `nkeys = 1`. -/
theorem claim4_track_sampling {V W : Type} (fcurves : List (Option (FCurve V)))
    (fc : FCurve V) (chEval : ℚ → V) (cur : V)
    (fcurves2 : List (Option (FCurve W))) (chEval2 : ℚ → W) (cur2 : W)
    (hfc : firstCurve fcurves = some fc) (hne : fcurves ≠ []) :
    (∃ keys : List (ℚ × V),
      make_track_chunk true fcurves chEval cur
          = some (some (nkeysOf fc.keyframe_points, keys)) ∧
      keys.map Prod.fst = sortedSet (insertZero fc.keyframe_points) ∧
      (keys.map Prod.fst).Sorted (· < ·) ∧
      (keys.map Prod.fst).Nodup ∧
      (0:ℚ) ∈ keys.map Prod.fst) ∧
    make_track_chunk false fcurves2 chEval2 cur2 = some (some (1, [(0, cur2)])) := by
  constructor
  · have hemp : fcurves.isEmpty = false := by
      cases fcurves with
      | nil => exact absurd rfl hne
      | cons a l => rfl
    refine ⟨(sortedSet (insertZero fc.keyframe_points)).map (fun f => (f, chEval f)), ?_, ?_, ?_, ?_, ?_⟩
    · simp [make_track_chunk, hemp, hfc]
    · exact map_fst_pair chEval _
    · rw [map_fst_pair]
      exact sortedSet_sorted _
    · rw [map_fst_pair]
      exact (sortedSet_sorted _).nodup
    · rw [map_fst_pair, sortedSet_mem]
      exact insertZero_mem_zero _
  · rfl

/-- Witness for C4 at a concrete animated curve (keyframes `[3, 1]`,
lacking 0) and a concrete static channel. -/
theorem claim4_witness :
    firstCurve [none, some (⟨"location", [3, 1], fun _ => (0:ℚ)⟩ : FCurve ℚ)]
        = some ⟨"location", [3, 1], fun _ => (0:ℚ)⟩ ∧
    make_track_chunk false ([] : List (Option (FCurve ℚ))) (fun _ => (0:ℚ)) 7
        = some (some (1, [(0, 7)])) := by
  have h := claim4_track_sampling
    [none, some (⟨"location", [3, 1], fun _ => (0:ℚ)⟩ : FCurve ℚ)]
    ⟨"location", [3, 1], fun _ => (0:ℚ)⟩ (fun _ => (0:ℚ)) 0
    ([] : List (Option (FCurve ℚ))) (fun _ => (0:ℚ)) 7
    rfl (by simp)
  exact ⟨rfl, h.2⟩

/-- C10: for all three animated-track builders alike, the sampled time
set is a function of the first non-`None` f-curve's keyframe points
only: it equals `sorted(set(first curve's times ∪ {0}))`, two f-curve
lists whose first non-`None` curves author the same keyframe times
sample identically (whatever the other curves — including ones that
drive the encoded channel — author), and appending further curves
changes nothing. -/
theorem claim10_first_curve_only {V : Type} (fs gs more : List (Option (FCurve V)))
    (c c' : FCurve V) (hc : firstCurve fs = some c) (hc' : firstCurve gs = some c')
    (hk : c.keyframe_points = c'.keyframe_points) :
    trackKframes fs = some (sortedSet (insertZero c.keyframe_points)) ∧
    trackKframes fs = trackKframes gs ∧
    targetNodeKframes fs = trackKframes fs ∧
    ambientNodeKframes fs = trackKframes fs ∧
    trackKframes (fs ++ more) = trackKframes fs := by
  refine ⟨?_, ?_, rfl, rfl, ?_⟩
  · rw [trackKframes, hc, Option.map_some']
  · rw [trackKframes, trackKframes, hc, hc', Option.map_some', Option.map_some', hk]
  · have hfm : firstCurve (fs ++ more) = some c := by
      rw [firstCurve, List.filterMap_append, List.head?_append]
      rw [firstCurve] at hc
      rw [hc]
      rfl
    rw [trackKframes, trackKframes, hfm, hc]

/-- Witness for C10 at two concrete f-curve lists sharing the first
curve's keyframe times but differing in their other curves. -/
theorem claim10_witness :
    trackKframes [some (⟨"location", [2], fun _ => (0:ℚ)⟩ : FCurve ℚ)]
        = some (sortedSet (insertZero [2])) := by
  exact (claim10_first_curve_only
    [some (⟨"location", [2], fun _ => (0:ℚ)⟩ : FCurve ℚ)]
    [some ⟨"scale", [2], fun _ => (1:ℚ)⟩, some ⟨"location", [5], fun _ => (2:ℚ)⟩]
    [some ⟨"location", [9], fun _ => (3:ℚ)⟩]
    ⟨"location", [2], fun _ => (0:ℚ)⟩ ⟨"scale", [2], fun _ => (1:ℚ)⟩
    rfl rfl rfl).1

/-! ### Claim 2: the vertex/UV deduplication (`remove_face_uv`)

UV coordinates (Python floats) are modelled as exact rationals.  The
per-vertex `unique_uvs[i]` dictionary — insertion-ordered, mapping a UV
key to the pair (local offset, UV), where the stored offset is the
dictionary's size at insertion time — is modelled as the list of its
keys in insertion order, so a key's stored offset is its index in that
list.  A triangle contributes its three corners in order, and the first
pass of `remove_face_uv` is a left fold over the flattened corner
sequence that also records each corner's `tri.offset[i]`. -/

/-- A UV key as produced by `uv_key`: a pair of rationals. -/
abbrev UV := ℚ × ℚ

/-- Python `round(q, 6)` (round half to even), idealised on exact
rationals. -/
def pyRound6 (q : ℚ) : ℚ :=
  let s := q * 1000000
  let f := s - ⌊s⌋
  let r : ℤ :=
    if f < 1/2 then ⌊s⌋
    else if 1/2 < f then ⌊s⌋ + 1
    else if Even ⌊s⌋ then ⌊s⌋ else ⌊s⌋ + 1
  (r : ℚ) / 1000000

/-- `uv_key(uv)` (lines 167-168): both components rounded to 6 decimal
digits; this is the deduplication key carried by `tri.faceuvs`. -/
def uv_key (uv : ℚ × ℚ) : UV := (pyRound6 uv.1, pyRound6 uv.2)

/-- The data of a triangle that `remove_face_uv` consumes: three vertex
indices and the three per-corner `uv_key` images stored in
`tri.faceuvs`. -/
structure Tri where
  vertex_index : Nat × Nat × Nat
  faceuvs : UV × UV × UV
deriving DecidableEq, Repr

/-- The flattened corner sequence of a triangle list, in processing
order: each triangle contributes `(vertex_index[i], faceuvs[i])` for
`i = 0, 1, 2`. -/
def corners (tris : List Tri) : List (Nat × UV) :=
  tris.flatMap (fun t =>
    [(t.vertex_index.1, t.faceuvs.1),
     (t.vertex_index.2.1, t.faceuvs.2.1),
     (t.vertex_index.2.2, t.faceuvs.2.2)])

/-- `unique_uvs[v]` read off the state (out-of-range reads, which would
raise in Python, return the empty slot). -/
def slot (m : List (List UV)) (v : Nat) : List UV := m.getD v []

/-- The position of a key in a slot (the local offset the dictionary
stored for it at insertion time, since slots only ever grow by
appending fresh keys). -/
def idxOfUV (k : UV) : List UV → Nat
  | [] => 0
  | a :: l => if a = k then 0 else idxOfUV k l + 1

/-- One step of the first pass of `remove_face_uv` (lines 849-861) on
state (per-vertex key lists, recorded corner offsets): look up the
corner's key in its vertex's dictionary; on a miss insert it with local
offset = current dictionary size; record the corner's offset either
way. -/
def dedupStep (s : List (List UV) × List Nat) (c : Nat × UV) :
    List (List UV) × List Nat :=
  let l := slot s.1 c.1
  if c.2 ∈ l then (s.1, s.2 ++ [idxOfUV c.2 l])
  else (s.1.set c.1 (l ++ [c.2]), s.2 ++ [l.length])

/-- The first pass of `remove_face_uv`: fold the corner sequence over
the initial state `unique_uvs = [{} for i in range(len(verts))]`. -/
def dedupPass (V : Nat) (cs : List (Nat × UV)) : List (List UV) × List Nat :=
  cs.foldl dedupStep (List.replicate V [], [])

/-- `index_list[v]`: the cumulative output-vertex offset of original
vertex `v` (sum of the distinct-UV counts of the earlier vertices). -/
def cumOffset (m : List (List UV)) (v : Nat) : Nat :=
  ((m.take v).map List.length).sum

/-- `remove_face_uv` (lines 839-894): returns the duplicated vertex
array (one copy of each original vertex per distinct UV it owns, in
first-seen order), the UV array in the matching order, and the
rewritten corner indices `tri.offset[i] + index_list[vertex_index[i]]`
in corner order. -/
def remove_face_uv {P : Type} (verts : List P) (tris : List Tri) :
    List P × List UV × List Nat :=
  let cs := corners tris
  let s := dedupPass verts.length cs
  ((verts.zip s.1).flatMap (fun p => List.replicate p.2.length p.1),
   s.1.flatten,
   (cs.zip s.2).map (fun p => p.2 + cumOffset s.1 p.1.1))

/-- The number of distinct rounded-UV keys observed at vertex `v`
across all corners of the triangle list. -/
def distinctUVCount (v : Nat) (cs : List (Nat × UV)) : Nat :=
  ((cs.filter (fun c => c.1 = v)).map (fun c => c.2)).dedup.length

/-- The output-vertex count the claim asserts:
`Σ over original vertices of max(1, distinct UV count)`. -/
def claimedOutCount (V : Nat) (cs : List (Nat × UV)) : Nat :=
  ((List.range V).map (fun v => max 1 (distinctUVCount v cs))).sum

theorem idxOfUV_append_of_mem {k : UV} {l1 : List UV} (h : k ∈ l1) (l2 : List UV) :
    idxOfUV k (l1 ++ l2) = idxOfUV k l1 := by
  induction l1 with
  | nil => exact absurd h (List.not_mem_nil k)
  | cons a l ih =>
      by_cases ha : a = k
      · simp [idxOfUV, ha]
      · have hm : k ∈ l := by
          rcases List.mem_cons.mp h with hk | hk
          · exact absurd hk.symm ha
          · exact hk
        simp [idxOfUV, ha, ih hm]

theorem idxOfUV_append_of_not_mem {k : UV} {l1 : List UV} (h : k ∉ l1) (l2 : List UV) :
    idxOfUV k (l1 ++ l2) = l1.length + idxOfUV k l2 := by
  induction l1 with
  | nil => simp [idxOfUV]
  | cons a l ih =>
      have ha : ¬a = k := fun he => h (he ▸ List.mem_cons_self a l)
      have hm : k ∉ l := fun hk => h (List.mem_cons_of_mem a hk)
      have hstep : idxOfUV k ((a :: l) ++ l2) = idxOfUV k (l ++ l2) + 1 := by
        rw [List.cons_append]
        simp [idxOfUV, ha]
      rw [hstep, ih hm, List.length_cons]
      omega

theorem idxOfUV_lt_length {k : UV} {l : List UV} (h : k ∈ l) : idxOfUV k l < l.length := by
  induction l with
  | nil => exact absurd h (List.not_mem_nil k)
  | cons a l ih =>
      by_cases ha : a = k
      · simp [idxOfUV, ha]
      · have hm : k ∈ l := by
          rcases List.mem_cons.mp h with hk | hk
          · exact absurd hk.symm ha
          · exact hk
        have hstep : idxOfUV k (a :: l) = idxOfUV k l + 1 := by
          simp [idxOfUV, ha]
        rw [hstep, List.length_cons]
        exact Nat.succ_lt_succ (ih hm)

theorem slot_replicate (V v : Nat) : slot (List.replicate V ([] : List UV)) v = [] := by
  rw [slot, List.getD_eq_getElem?_getD, List.getElem?_replicate]
  split <;> rfl

theorem slot_set_self {m : List (List UV)} {v : Nat} (h : v < m.length) (l : List UV) :
    slot (m.set v l) v = l := by
  rw [slot, List.getD_eq_getElem?_getD, List.getElem?_set]
  simp [h]

theorem slot_set_ne {m : List (List UV)} {v u : Nat} (h : v ≠ u) (l : List UV) :
    slot (m.set v l) u = slot m u := by
  rw [slot, List.getD_eq_getElem?_getD, List.getElem?_set_ne h, slot,
    List.getD_eq_getElem?_getD]

/-- The loop invariant of the first pass: one slot per original vertex;
one recorded offset per processed corner; every slot is duplicate-free
and holds exactly the keys of the processed corners at its vertex; and
each processed corner's recorded offset is the index of its key in its
vertex's current slot (stable under later appends). -/
def DedupInv (V : Nat) (processed : List (Nat × UV)) (s : List (List UV) × List Nat) : Prop :=
  s.1.length = V ∧
  s.2.length = processed.length ∧
  (∀ v, (slot s.1 v).Nodup) ∧
  (∀ v k, k ∈ slot s.1 v ↔ (v, k) ∈ processed) ∧
  ∀ j, ∀ hj : j < processed.length,
    (processed.get ⟨j, hj⟩).2 ∈ slot s.1 (processed.get ⟨j, hj⟩).1 ∧
    s.2[j]? = some (idxOfUV (processed.get ⟨j, hj⟩).2
      (slot s.1 (processed.get ⟨j, hj⟩).1))

theorem dedupInv_init (V : Nat) : DedupInv V [] (List.replicate V [], []) := by
  refine ⟨by simp, rfl, ?_, ?_, ?_⟩
  · intro v
    rw [slot_replicate]
    exact List.nodup_nil
  · intro v k
    rw [slot_replicate]
    simp
  · intro j hj
    simp at hj

theorem dedupStep_inv {V : Nat} {processed : List (Nat × UV)}
    {s : List (List UV) × List Nat} {c : Nat × UV}
    (hc : c.1 < V) (h : DedupInv V processed s) :
    DedupInv V (processed ++ [c]) (dedupStep s c) := by
  obtain ⟨hlen, holen, hnd, hmem, hoff⟩ := h
  rw [dedupStep]
  by_cases hin : c.2 ∈ slot s.1 c.1
  · rw [if_pos hin]
    refine ⟨hlen, by simp [holen], hnd, ?_, ?_⟩
    · intro v k
      rw [hmem v k]
      constructor
      · intro hp
        exact List.mem_append_left _ hp
      · intro hp
        rcases List.mem_append.mp hp with hp | hp
        · exact hp
        · have : (v, k) = c := List.mem_singleton.mp hp
          rw [← this] at hin
          rw [hmem v k] at hin
          exact hin
    · intro j hj
      rw [List.length_append, List.length_singleton] at hj
      by_cases hlt : j < processed.length
      · have hget : (processed ++ [c]).get ⟨j, by simp; omega⟩
            = processed.get ⟨j, hlt⟩ := List.get_append_left _ _ _
        rw [hget]
        obtain ⟨hm, ho⟩ := hoff j hlt
        refine ⟨hm, ?_⟩
        rw [List.getElem?_append_left (by omega)]
        exact ho
      · have hje : j = processed.length := by omega
        subst hje
        have hget : (processed ++ [c]).get ⟨processed.length, by simp⟩ = c := by
          rw [List.get_eq_getElem]
          exact List.getElem_concat_length _ _ _ rfl _
        rw [hget]
        refine ⟨hin, ?_⟩
        rw [← holen, List.getElem?_concat_length]
  · rw [if_neg hin]
    have hcm : c.1 < s.1.length := by rw [hlen]; exact hc
    have hself : slot (s.1.set c.1 (slot s.1 c.1 ++ [c.2])) c.1
        = slot s.1 c.1 ++ [c.2] := slot_set_self hcm _
    refine ⟨by simp [hlen], by simp [holen], ?_, ?_, ?_⟩
    · intro v
      by_cases hv : c.1 = v
      · subst hv
        rw [hself]
        simp [List.nodup_append, hnd c.1, hin]
      · rw [slot_set_ne hv]
        exact hnd v
    · intro v k
      by_cases hv : c.1 = v
      · subst hv
        rw [hself, List.mem_append, hmem c.1 k, List.mem_singleton, List.mem_append,
          List.mem_singleton]
        constructor
        · intro hp
          rcases hp with hp | hp
          · exact Or.inl hp
          · exact Or.inr (by rw [hp])
        · intro hp
          rcases hp with hp | hp
          · exact Or.inl hp
          · exact Or.inr (congrArg Prod.snd hp)
      · rw [slot_set_ne hv, hmem v k, List.mem_append, List.mem_singleton]
        constructor
        · intro hp
          exact Or.inl hp
        · intro hp
          rcases hp with hp | hp
          · exact hp
          · exact absurd (congrArg Prod.fst hp).symm hv
    · intro j hj
      rw [List.length_append, List.length_singleton] at hj
      by_cases hlt : j < processed.length
      · have hget : (processed ++ [c]).get ⟨j, by simp; omega⟩
            = processed.get ⟨j, hlt⟩ := List.get_append_left _ _ _
        rw [hget]
        obtain ⟨hm, ho⟩ := hoff j hlt
        by_cases hv : c.1 = (processed.get ⟨j, hlt⟩).1
        · have hm2 : (processed.get ⟨j, hlt⟩).2 ∈ slot s.1 c.1 := by
            rw [hv]
            exact hm
          rw [← hv, hself]
          refine ⟨List.mem_append_left _ hm2, ?_⟩
          rw [List.getElem?_append_left (by omega), idxOfUV_append_of_mem hm2, ho, hv]
        · rw [slot_set_ne hv]
          refine ⟨hm, ?_⟩
          rw [List.getElem?_append_left (by omega)]
          exact ho
      · have hje : j = processed.length := by omega
        subst hje
        have hget : (processed ++ [c]).get ⟨processed.length, by simp⟩ = c := by
          rw [List.get_eq_getElem]
          exact List.getElem_concat_length _ _ _ rfl _
        rw [hget, hself]
        refine ⟨List.mem_append_right _ (List.mem_singleton.mpr rfl), ?_⟩
        rw [← holen, List.getElem?_concat_length, idxOfUV_append_of_not_mem hin]
        simp [idxOfUV]

theorem dedupFold_inv (V : Nat) : ∀ (cs processed : List (Nat × UV))
    (s : List (List UV) × List Nat),
    (∀ c ∈ cs, c.1 < V) → DedupInv V processed s →
    DedupInv V (processed ++ cs) (cs.foldl dedupStep s)
  | [], processed, s, _, h => by simpa using h
  | c :: cs, processed, s, hcs, h => by
      have h1 : c.1 < V := hcs c (List.mem_cons_self c cs)
      have h2 : ∀ x ∈ cs, x.1 < V := fun x hx => hcs x (List.mem_cons_of_mem c hx)
      have hrec := dedupFold_inv V cs (processed ++ [c]) (dedupStep s c) h2
        (dedupStep_inv h1 h)
      simpa [List.append_assoc] using hrec

/-- The first-pass invariant holds of the completed pass. -/
theorem dedupPass_inv (V : Nat) (cs : List (Nat × UV)) (hcs : ∀ c ∈ cs, c.1 < V) :
    DedupInv V cs (dedupPass V cs) := by
  have h := dedupFold_inv V cs [] (List.replicate V [], []) hcs (dedupInv_init V)
  simpa [dedupPass] using h

theorem pair_mem_iff_key_mem (cs : List (Nat × UV)) (v : Nat) (k : UV) :
    (v, k) ∈ cs ↔ k ∈ (cs.filter (fun c => c.1 = v)).map (fun c => c.2) := by
  simp only [List.mem_map, List.mem_filter, decide_eq_true_eq]
  constructor
  · intro h
    exact ⟨(v, k), ⟨h, rfl⟩, rfl⟩
  · rintro ⟨⟨a, b⟩, ⟨hmem, hfst⟩, hsnd⟩
    simp only at hfst hsnd
    rw [← hfst, ← hsnd]
    exact hmem

theorem slot_length_eq_distinct {V : Nat} {cs : List (Nat × UV)}
    (hcs : ∀ c ∈ cs, c.1 < V) (v : Nat) :
    (slot (dedupPass V cs).1 v).length = distinctUVCount v cs := by
  obtain ⟨h1, h2, h3, h4, h5⟩ := dedupPass_inv V cs hcs
  have hfin : (slot (dedupPass V cs).1 v).toFinset
      = ((cs.filter (fun c => c.1 = v)).map (fun c => c.2)).toFinset := by
    ext k
    rw [List.mem_toFinset, List.mem_toFinset, h4 v k, pair_mem_iff_key_mem]
  rw [distinctUVCount, ← List.card_toFinset, ← hfin,
    List.toFinset_card_of_nodup (h3 v)]

theorem range_map_slot_length (m : List (List UV)) :
    (List.range m.length).map (fun v => (slot m v).length) = m.map List.length := by
  apply List.ext_getElem
  · simp
  · intro i h1 h2
    simp only [List.getElem_map, List.getElem_range]
    have hi : i < m.length := by simpa using h2
    rw [slot, List.getD_eq_getElem?_getD, List.getElem?_eq_getElem hi]
    rfl

theorem flatMap_replicate_length {P : Type} : ∀ (verts : List P) (m : List (List UV)),
    verts.length = m.length →
    ((verts.zip m).flatMap (fun p => List.replicate p.2.length p.1)).length
      = (m.map List.length).sum
  | [], [], _ => rfl
  | [], b :: m, h => by simp at h
  | a :: verts, [], h => by simp at h
  | a :: verts, b :: m, h => by
      simp only [List.zip_cons_cons, List.flatMap_cons, List.length_append,
        List.length_replicate, List.map_cons, List.sum_cons]
      rw [flatMap_replicate_length verts m (by simpa using h)]

theorem slot_eq_getElem {m : List (List UV)} {v : Nat} (h : v < m.length) :
    slot m v = m[v] := by
  rw [slot, List.getD_eq_getElem?_getD, List.getElem?_eq_getElem h]
  rfl

theorem cumOffset_add_le (m : List (List UV)) (v : Nat) (h : v < m.length) :
    cumOffset m v + (slot m v).length ≤ (m.map List.length).sum := by
  rw [cumOffset, slot_eq_getElem h]
  calc ((m.take v).map List.length).sum + m[v].length
      ≤ ((m.take v).map List.length).sum
          + (m[v].length + ((m.drop (v+1)).map List.length).sum) := by omega
    _ = ((m.take v ++ m[v] :: m.drop (v+1)).map List.length).sum := by
        rw [List.map_append, List.sum_append, List.map_cons, List.sum_cons]
    _ = (m.map List.length).sum := by
        rw [← List.drop_eq_getElem_cons h, List.take_append_drop]

/-- C2 counterexample: for a mesh with one vertex, no triangles and a
UV layer present, `remove_face_uv` emits an empty output vertex array,
while the claim's `Σ max(1, distinct UV count)` formula demands one
output vertex for the corner-less vertex. -/
theorem claim2_counterexample :
    ((remove_face_uv [()] ([] : List Tri)).1).length
      ≠ claimedOutCount 1 (corners ([] : List Tri)) := by
  decide

theorem newIdx_getElem_some {P : Type} (verts : List P) (tris : List Tri)
    (hb : ∀ c ∈ corners tris, c.1 < verts.length) (j : Nat)
    (hj : j < (corners tris).length) :
    ((remove_face_uv verts tris).2.2)[j]? =
      some (idxOfUV ((corners tris).get ⟨j, hj⟩).2
          (slot (dedupPass verts.length (corners tris)).1
            ((corners tris).get ⟨j, hj⟩).1)
        + cumOffset (dedupPass verts.length (corners tris)).1
            ((corners tris).get ⟨j, hj⟩).1) := by
  obtain ⟨h1, h2, h3, h4, h5⟩ := dedupPass_inv verts.length (corners tris) hb
  have hR : (remove_face_uv verts tris).2.2
      = ((corners tris).zip (dedupPass verts.length (corners tris)).2).map
          (fun p => p.2 + cumOffset (dedupPass verts.length (corners tris)).1 p.1.1) :=
    rfl
  have hzlen : ((corners tris).zip (dedupPass verts.length (corners tris)).2).length
      = (corners tris).length := by
    rw [List.length_zip, h2]
    exact Nat.min_self _
  have hoj := (h5 j hj).2
  have hjo : j < (dedupPass verts.length (corners tris)).2.length := by
    rw [h2]
    exact hj
  rw [List.getElem?_eq_getElem hjo] at hoj
  have hoval := Option.some.inj hoj
  rw [hR, List.getElem?_eq_getElem (by rw [List.length_map, hzlen]; exact hj)]
  congr 1
  rw [List.getElem_map, List.getElem_zip]
  rw [List.get_eq_getElem] at hoval
  rw [hoval]
  rfl

theorem outVerts_length {P : Type} (verts : List P) (tris : List Tri)
    (hb : ∀ c ∈ corners tris, c.1 < verts.length) :
    ((remove_face_uv verts tris).1).length
      = ((dedupPass verts.length (corners tris)).1.map List.length).sum := by
  obtain ⟨h1, h2, h3, h4, h5⟩ := dedupPass_inv verts.length (corners tris) hb
  have hR : (remove_face_uv verts tris).1
      = (verts.zip (dedupPass verts.length (corners tris)).1).flatMap
          (fun p => List.replicate p.2.length p.1) := rfl
  rw [hR, flatMap_replicate_length verts _ h1.symm]

/-- C2 amended: the output vertex array's length equals, summed over
every original vertex, the number of distinct rounded-UV keys observed
at that vertex (a vertex no triangle corner touches contributes 0, not
the claimed `max(1, ·)`); every rewritten triangle corner index is
strictly below the output vertex count; and two corners that share the
same (original vertex, rounded UV) pair are rewritten to the same
output index. -/
theorem claim2_amended_dedup {P : Type} (verts : List P) (tris : List Tri)
    (hb : ∀ c ∈ corners tris, c.1 < verts.length) :
    ((remove_face_uv verts tris).1).length
        = ((List.range verts.length).map
            (fun v => distinctUVCount v (corners tris))).sum ∧
    (∀ (j x : Nat), ((remove_face_uv verts tris).2.2)[j]? = some x →
        x < ((remove_face_uv verts tris).1).length) ∧
    (∀ i j : Nat, (corners tris)[i]? = (corners tris)[j]? →
        ((remove_face_uv verts tris).2.2)[i]? = ((remove_face_uv verts tris).2.2)[j]?) := by
  obtain ⟨h1, h2, h3, h4, h5⟩ := dedupPass_inv verts.length (corners tris) hb
  have hlen2 : ((remove_face_uv verts tris).2.2).length = (corners tris).length := by
    have hR : (remove_face_uv verts tris).2.2
        = ((corners tris).zip (dedupPass verts.length (corners tris)).2).map
            (fun p => p.2 + cumOffset (dedupPass verts.length (corners tris)).1 p.1.1) :=
      rfl
    rw [hR, List.length_map, List.length_zip, h2]
    exact Nat.min_self _
  refine ⟨?_, ?_, ?_⟩
  · rw [outVerts_length verts tris hb]
    rw [← range_map_slot_length, h1]
    refine congrArg List.sum ?_
    refine List.map_congr_left ?_
    intro v _
    exact slot_length_eq_distinct hb v
  · intro j x hx
    have hj : j < (corners tris).length := by
      by_contra hcon
      rw [List.getElem?_eq_none (by rw [hlen2]; omega)] at hx
      exact Option.noConfusion hx
    rw [newIdx_getElem_some verts tris hb j hj] at hx
    obtain hx := (Option.some.inj hx).symm
    subst hx
    have hkm := (h5 j hj).1
    have hvV : ((corners tris).get ⟨j, hj⟩).1 < verts.length :=
      hb _ (List.get_mem _ _ hj)
    have hvm : ((corners tris).get ⟨j, hj⟩).1
        < (dedupPass verts.length (corners tris)).1.length := by
      rw [h1]
      exact hvV
    have hidx := idxOfUV_lt_length hkm
    have hcum := cumOffset_add_le (dedupPass verts.length (corners tris)).1
      ((corners tris).get ⟨j, hj⟩).1 hvm
    rw [outVerts_length verts tris hb]
    omega
  · intro i j hij
    by_cases hi : i < (corners tris).length
    · have hj : j < (corners tris).length := by
        by_contra hcon
        rw [List.getElem?_eq_getElem hi, List.getElem?_eq_none (by omega)] at hij
        exact Option.noConfusion hij
      rw [newIdx_getElem_some verts tris hb i hi, newIdx_getElem_some verts tris hb j hj]
      rw [List.getElem?_eq_getElem hi, List.getElem?_eq_getElem hj] at hij
      have hpair := Option.some.inj hij
      rw [List.get_eq_getElem, List.get_eq_getElem, hpair]
    · have hj : ¬j < (corners tris).length := by
        by_contra hcon
        rw [List.getElem?_eq_getElem (by omega : j < (corners tris).length),
          List.getElem?_eq_none (by omega)] at hij
        exact Option.noConfusion hij
      rw [List.getElem?_eq_none (by rw [hlen2]; omega),
        List.getElem?_eq_none (by rw [hlen2]; omega)]

/-- Witness for the amended C2: two vertices, one triangle whose first
two corners share vertex 0 with the same rounded UV and whose third
corner uses vertex 1; the output has one vertex copy per distinct
(vertex, UV) pair. -/
theorem claim2_amended_witness :
    ((remove_face_uv [0, 1] [⟨(0, 0, 1), ((0, 0), (0, 0), (1, 0))⟩]).1).length
        = ((List.range 2).map
            (fun v => distinctUVCount v
              (corners [⟨(0, 0, 1), ((0, 0), (0, 0), (1, 0))⟩]))).sum :=
  (claim2_amended_dedup [0, 1] [⟨(0, 0, 1), ((0, 0), (0, 0), (1, 0))⟩]
    (by decide)).1

/-! ### Claim 8: ambient color emission and the ambient node -/

/-- A scene world as `save` consumes it: its color, and its
`animation_data` attribute — `none` when absent, otherwise carrying the
`action` attribute, which itself is `none` or a list of f-curves. -/
structure AmbWorld (V : Type) where
  color : V
  animation_data : Option (Option (List (Option (FCurve V))))

/-- The ambient stage of `save` (lines 1524-1532): when a world exists,
an AMBIENTLIGHT color chunk is always added to OBJECTINFO, and
`make_ambient_node` is added to the keyframe data exactly when keyframe
export is on and `world.animation_data` is truthy.  Returns (static
chunk emitted, ambient node added). -/
def saveAmbient {V : Type} (world : Option (AmbWorld V)) (write_keyframe : Bool) :
    Bool × Bool :=
  match world with
  | none => (false, false)
  | some w => (true, write_keyframe && w.animation_data.isSome)

/-- Spec-side predicate: the world's color is itself animated — some
f-curve of the world's action drives the `color` data path. -/
def colorAnimated {V : Type} (w : AmbWorld V) : Bool :=
  match w.animation_data with
  | none => false
  | some none => false
  | some (some fcurves) =>
      (fcurves.filterMap id).any (fun fc => fc.data_path = "color")

/-- C8 counterexample: a world whose `animation_data` exists but whose
`action` is `None` gets an ambient node added (the code only tests
`world.animation_data`), although its color is not animated — refuting
the claimed "if and only if the world's color is itself animated". -/
theorem claim8_counterexample :
    ¬(((saveAmbient (some (⟨(0:ℚ), some none⟩ : AmbWorld ℚ)) true).2 = true)
        ↔ colorAnimated (⟨(0:ℚ), some none⟩ : AmbWorld ℚ) = true) := by
  decide

/-- C8 amended: when the scene has a world its ambient color chunk is
emitted unconditionally (with no world nothing is emitted), and an
ambient node is added to the keyframe data if and only if keyframe
export is requested and the world has an `animation_data` attribute —
regardless of whether the color itself is animated. -/
theorem claim8_amended_ambient {V : Type} (w : AmbWorld V) (wk : Bool) :
    (saveAmbient (some w) wk).1 = true ∧
    saveAmbient (none : Option (AmbWorld V)) wk = (false, false) ∧
    ((saveAmbient (some w) wk).2 = true ↔ wk = true ∧ w.animation_data.isSome = true) := by
  refine ⟨rfl, rfl, ?_⟩
  rw [saveAmbient]
  simp

/-! ### Claim 9: teardown of the name tables at the end of `save` -/

/-- The global name-sanitizer state of the module: `name_unique` (the
list of emitted names) and `name_mapping` (original name → emitted
name, an insertion-ordered association list with unique keys). -/
structure NameState where
  name_unique : List (List Char)
  name_mapping : List (List Char × List Char)
deriving DecidableEq, Repr

/-- The tail of `save` (lines 1739-1750): open the destination, write,
close, then clear `name_unique` and `name_mapping`.  There is no
`try/finally`, so when opening or writing raises an I/O error the
exception propagates before the two clears run and the tables keep
their contents. -/
def saveFinalize (st : NameState) (ioError : Bool) : NameState :=
  if ioError then st else ⟨[], []⟩

/-- C9 counterexample: after a failed export (I/O error while opening
or writing) a non-empty name table survives untouched, refuting the
claim that the tables are cleared whether the export succeeds or
fails. -/
theorem claim9_counterexample :
    saveFinalize ⟨[['A']], [(['A'], ['A'])]⟩ true ≠ ⟨[], []⟩ := by
  decide

/-- C9 amended: the name-uniqueness table and the name-mapping memo are
cleared when the export completes normally, but an I/O failure while
opening or writing the destination propagates before the clears run
and leaves both tables unchanged, so those mappings remain observable
by a later export. -/
theorem claim9_amended_teardown (st : NameState) :
    saveFinalize st false = ⟨[], []⟩ ∧ saveFinalize st true = st := by
  exact ⟨rfl, rfl⟩

/-! ### Claim 6: the name sanitizer `sane_name`

Python strings are modelled as `List Char`.  The final
`new_name.encode("ASCII", "replace")` is the identity on the emitted
name (which is ASCII by construction), so `name_unique` entries and
`name_mapping` values live in the same type here. -/

/-- The decimal digit character of a value below ten. -/
def digitChar : Nat → Char
  | 0 => '0'
  | 1 => '1'
  | 2 => '2'
  | 3 => '3'
  | 4 => '4'
  | 5 => '5'
  | 6 => '6'
  | 7 => '7'
  | 8 => '8'
  | _ => '9'

/-- Decimal digits, most significant first, by structural recursion on
a fuel bound (any fuel above the value itself suffices, so the fuel is
a proof device and `natDigits` below fixes it). -/
def natDigitsAux : Nat → Nat → List Char
  | 0, _ => []
  | fuel + 1, n =>
      if n < 10 then [digitChar n]
      else natDigitsAux fuel (n / 10) ++ [digitChar (n % 10)]

/-- The decimal digits of `n`, most significant first (Python `%d`). -/
def natDigits (n : Nat) : List Char := natDigitsAux (n + 1) n

/-- `%.3d`: the decimal digits left-padded with zeros to width three. -/
def padThree (n : Nat) : List Char :=
  List.replicate (3 - (natDigits n).length) '0' ++ natDigits n

/-- The numeric value of a digit string, as a left fold (so leading
zeros do not change it). -/
def digitsVal (l : List Char) : Nat :=
  l.foldl (fun a c => 10 * a + (c.toNat - 48)) 0

theorem digitChar_toNat {d : Nat} (h : d < 10) : (digitChar d).toNat = 48 + d := by
  interval_cases d <;> decide

theorem digitsVal_append_singleton (l : List Char) (c : Char) :
    digitsVal (l ++ [c]) = 10 * digitsVal l + (c.toNat - 48) := by
  rw [digitsVal, List.foldl_append]
  rfl

theorem digitsVal_digitChar {n : Nat} (h : n < 10) :
    digitsVal [digitChar n] = n := by
  have h1 : digitsVal [digitChar n] = (digitChar n).toNat - 48 := by
    rw [digitsVal]
    simp
  rw [h1, digitChar_toNat h]
  omega

theorem natDigitsAux_val : ∀ fuel n, n < fuel → digitsVal (natDigitsAux fuel n) = n
  | 0, n, h => absurd h (by omega)
  | fuel + 1, n, h => by
      rw [natDigitsAux]
      by_cases h10 : n < 10
      · rw [if_pos h10]
        exact digitsVal_digitChar h10
      · rw [if_neg h10, digitsVal_append_singleton,
          natDigitsAux_val fuel (n / 10) (by omega),
          digitChar_toNat (Nat.mod_lt n (by omega))]
        omega

theorem digitsVal_natDigits (n : Nat) : digitsVal (natDigits n) = n :=
  natDigitsAux_val (n + 1) n (by omega)

theorem digitsVal_replicate_zero (k : Nat) (l : List Char) :
    digitsVal (List.replicate k '0' ++ l) = digitsVal l := by
  induction k with
  | zero => rfl
  | succ k ih =>
      rw [List.replicate_succ, List.cons_append]
      show digitsVal (List.replicate k '0' ++ l) = digitsVal l
      exact ih

theorem digitsVal_padThree (n : Nat) : digitsVal (padThree n) = n := by
  rw [padThree, digitsVal_replicate_zero, digitsVal_natDigits]

theorem padThree_inj {a b : Nat} (h : padThree a = padThree b) : a = b := by
  have hv := congrArg digitsVal h
  rwa [digitsVal_padThree, digitsVal_padThree] at hv

theorem natDigitsAux_length_pos : ∀ fuel n, n < fuel →
    1 ≤ (natDigitsAux fuel n).length
  | 0, n, h => absurd h (by omega)
  | fuel + 1, n, _ => by
      rw [natDigitsAux]
      by_cases h10 : n < 10
      · rw [if_pos h10]
        simp
      · rw [if_neg h10]
        simp

theorem natDigits_length_pos (n : Nat) : 1 ≤ (natDigits n).length :=
  natDigitsAux_length_pos (n + 1) n (by omega)

theorem natDigitsAux_length_one : ∀ fuel n, n < fuel → n < 10 →
    (natDigitsAux fuel n).length = 1
  | 0, n, h, _ => absurd h (by omega)
  | fuel + 1, n, _, h10 => by
      rw [natDigitsAux, if_pos h10]
      rfl

theorem natDigitsAux_length_two : ∀ fuel n, n < fuel → n < 100 →
    (natDigitsAux fuel n).length ≤ 2
  | 0, n, h, _ => absurd h (by omega)
  | fuel + 1, n, h, h100 => by
      rw [natDigitsAux]
      by_cases h10 : n < 10
      · rw [if_pos h10]
        simp
      · rw [if_neg h10, List.length_append, List.length_singleton,
          natDigitsAux_length_one fuel (n / 10) (by omega) (by omega)]

theorem natDigitsAux_length_three : ∀ fuel n, n < fuel → n < 1000 →
    (natDigitsAux fuel n).length ≤ 3
  | 0, n, h, _ => absurd h (by omega)
  | fuel + 1, n, h, h1000 => by
      rw [natDigitsAux]
      by_cases h10 : n < 10
      · rw [if_pos h10]
        simp
      · rw [if_neg h10, List.length_append, List.length_singleton]
        have := natDigitsAux_length_two fuel (n / 10) (by omega) (by omega)
        omega

theorem natDigits_length_le_three {n : Nat} (h : n < 1000) :
    (natDigits n).length ≤ 3 :=
  natDigitsAux_length_three (n + 1) n (by omega) h

theorem padThree_length {n : Nat} (h : n < 1000) : (padThree n).length = 3 := by
  rw [padThree, List.length_append, List.length_replicate]
  have h1 := natDigits_length_le_three h
  have h2 := natDigits_length_pos n
  omega

theorem natDigitsAux_ascii : ∀ fuel n, ∀ c ∈ natDigitsAux fuel n, c.toNat ≤ 127
  | 0, n => by
      intro c hc
      exact absurd hc (List.not_mem_nil c)
  | fuel + 1, n => by
      intro c hc
      rw [natDigitsAux] at hc
      by_cases h10 : n < 10
      · rw [if_pos h10, List.mem_singleton] at hc
        subst hc
        rw [digitChar_toNat h10]
        omega
      · rw [if_neg h10] at hc
        rcases List.mem_append.mp hc with hc | hc
        · exact natDigitsAux_ascii fuel (n / 10) c hc
        · rw [List.mem_singleton] at hc
          subst hc
          rw [digitChar_toNat (Nat.mod_lt n (by omega))]
          omega

theorem natDigits_ascii (n : Nat) : ∀ c ∈ natDigits n, c.toNat ≤ 127 :=
  natDigitsAux_ascii (n + 1) n

theorem padThree_ascii (n : Nat) : ∀ c ∈ padThree n, c.toNat ≤ 127 := by
  intro c hc
  rcases List.mem_append.mp hc with hc | hc
  · rw [List.eq_of_mem_replicate hc]
    decide
  · exact natDigits_ascii n c hc

/-- `name.encode("ASCII", "replace").decode("ASCII")`: every non-ASCII
character is replaced by `?`. -/
def asciiReplace (name : List Char) : List Char :=
  name.map (fun c => if c.toNat ≤ 127 then c else '?')

/-- The candidate name tested at iteration `j` of the `while` loop:
the truncated clean name first, then `clean + '.%.3d' % i` for
`i = 0, 1, ...`. -/
def candName (clean : List Char) : Nat → List Char
  | 0 => clean
  | j + 1 => clean ++ '.' :: padThree j

/-- The `while new_name in name_unique` loop of `sane_name`
(lines 157-159), fuel-bounded: at iteration state (current candidate,
`i`), a collision moves to the next suffix candidate.  A fuel of one
more than the table size always suffices (shown below), so the fuel is
a proof device, not a behavioural change. -/
def saneLoop (unique : List (List Char)) (clean cur : List Char) (i fuel : Nat) :
    List Char :=
  match fuel with
  | 0 => cur
  | fuel + 1 =>
      if cur ∈ unique then saneLoop unique clean (clean ++ '.' :: padThree i) (i + 1) fuel
      else cur

theorem candName_inj (clean : List Char) : Function.Injective (candName clean) := by
  intro a b hab
  match a, b with
  | 0, 0 => rfl
  | 0, b + 1 =>
      exfalso
      have hl := congrArg List.length hab
      simp [candName] at hl
  | a + 1, 0 =>
      exfalso
      have hl := congrArg List.length hab
      simp [candName] at hl
  | a + 1, b + 1 =>
      rw [candName, candName] at hab
      have h2 : '.' :: padThree a = '.' :: padThree b := List.append_cancel_left hab
      have h3 : padThree a = padThree b := by
        injection h2
      rw [padThree_inj h3]

theorem exists_fresh_cand (unique : List (List Char)) (clean : List Char) :
    ∃ j, j < unique.length + 1 ∧ candName clean j ∉ unique := by
  by_contra hcon
  push_neg at hcon
  have hsub : (Finset.range (unique.length + 1)).image (candName clean)
      ⊆ unique.toFinset := by
    intro x hx
    rw [Finset.mem_image] at hx
    obtain ⟨j, hj, rfl⟩ := hx
    rw [List.mem_toFinset]
    exact hcon j (Finset.mem_range.mp hj)
  have hcard := Finset.card_le_card hsub
  rw [Finset.card_image_of_injective _ (candName_inj clean), Finset.card_range] at hcard
  have hle := List.toFinset_card_le unique
  omega

theorem saneLoop_spec (unique : List (List Char)) (clean : List Char) :
    ∀ (fuel j : Nat),
    (∃ j2, j ≤ j2 ∧ j2 < j + fuel ∧ candName clean j2 ∉ unique) →
    ∃ j2, j ≤ j2 ∧ j2 < j + fuel ∧ candName clean j2 ∉ unique ∧
      saneLoop unique clean (candName clean j) j fuel = candName clean j2
  | 0, j, h => by
      obtain ⟨j2, h1, h2, _⟩ := h
      omega
  | fuel + 1, j, h => by
      rw [saneLoop]
      by_cases hin : candName clean j ∈ unique
      · rw [if_pos hin]
        have hnext : ∃ j2, j + 1 ≤ j2 ∧ j2 < (j + 1) + fuel ∧
            candName clean j2 ∉ unique := by
          obtain ⟨j2, h1, h2, h3⟩ := h
          refine ⟨j2, ?_, by omega, h3⟩
          rcases Nat.eq_or_lt_of_le h1 with he | hl
          · exact absurd (he ▸ hin) h3
          · omega
        obtain ⟨j2, h1, h2, h3, h4⟩ := saneLoop_spec unique clean fuel (j + 1) hnext
        exact ⟨j2, by omega, by omega, h3, h4⟩
      · rw [if_neg hin]
        exact ⟨j, Nat.le_refl j, by omega, hin, rfl⟩

theorem saneLoop_fresh (unique : List (List Char)) (clean : List Char) :
    ∃ j, j < unique.length + 1 ∧ candName clean j ∉ unique ∧
      saneLoop unique clean clean 0 (unique.length + 1) = candName clean j := by
  obtain ⟨j0, h1, h2⟩ := exists_fresh_cand unique clean
  have hex : ∃ j2, 0 ≤ j2 ∧ j2 < 0 + (unique.length + 1) ∧
      candName clean j2 ∉ unique := ⟨j0, Nat.zero_le _, by omega, h2⟩
  obtain ⟨j2, _, hj2, hnm, heq⟩ := saneLoop_spec unique clean (unique.length + 1) 0 hex
  exact ⟨j2, by omega, hnm, heq⟩

/-- `name_mapping.get(name)` on the insertion-ordered association
list. -/
def findMapping (mapping : List (List Char × List Char)) (name : List Char) :
    Option (List Char) :=
  (mapping.find? (fun p => p.1 = name)).map (fun p => p.2)

/-- `sane_name` (lines 148-164), with the module-level tables as
explicit state: return the memoized name if present; otherwise strip
non-ASCII characters, truncate to 12, suffix `'.%.3d' % i` until the
candidate is not in `name_unique`, then record the new name in both
tables. -/
def sane_name (st : NameState) (name : List Char) : List Char × NameState :=
  match findMapping st.name_mapping name with
  | some mapped => (mapped, st)
  | none =>
      let clean := (asciiReplace name).take 12
      let fresh := saneLoop st.name_unique clean clean 0 (st.name_unique.length + 1)
      (fresh, ⟨st.name_unique ++ [fresh], st.name_mapping ++ [(name, fresh)]⟩)

/-- The output-name length the claim asserts (at most 12 bytes). -/
def claimedMaxNameLen : Nat := 12

/-- The properties of the sanitizer state that hold throughout an
export session: mapping values live in `name_unique`; no two mapping
entries share a value; the mapping is functional in its key; every
recorded name is ASCII; and while at most 1000 names have been
recorded, every recorded name fits in 16 bytes. -/
def SaneInv (st : NameState) : Prop :=
  (∀ p ∈ st.name_mapping, p.2 ∈ st.name_unique) ∧
  (st.name_mapping.map Prod.snd).Nodup ∧
  (∀ p ∈ st.name_mapping, ∀ q ∈ st.name_mapping, p.1 = q.1 → p = q) ∧
  (∀ v ∈ st.name_unique, ∀ ch ∈ v, ch.toNat ≤ 127) ∧
  (st.name_unique.length ≤ 1000 → ∀ v ∈ st.name_unique, v.length ≤ 16)

theorem candName_ascii (name : List Char) (j : Nat) :
    ∀ ch ∈ candName ((asciiReplace name).take 12) j, ch.toNat ≤ 127 := by
  have hclean : ∀ ch ∈ (asciiReplace name).take 12, ch.toNat ≤ 127 := by
    intro ch hch
    have hm := List.mem_of_mem_take hch
    rw [asciiReplace, List.mem_map] at hm
    obtain ⟨c, _, hc⟩ := hm
    by_cases hc7 : c.toNat ≤ 127
    · rw [← hc, if_pos hc7]
      exact hc7
    · rw [← hc, if_neg hc7]
      decide
  match j with
  | 0 => exact hclean
  | j + 1 =>
      intro ch hch
      rw [candName] at hch
      rcases List.mem_append.mp hch with hch | hch
      · exact hclean ch hch
      · rcases List.mem_cons.mp hch with hch | hch
        · subst hch
          decide
        · exact padThree_ascii j ch hch

theorem candName_length {name : List Char} {j : Nat} (hj : j ≤ 999) :
    (candName ((asciiReplace name).take 12) j).length ≤ 16 := by
  have hclean : ((asciiReplace name).take 12).length ≤ 12 := by
    rw [List.length_take]
    omega
  match j with
  | 0 =>
      rw [candName]
      omega
  | j + 1 =>
      rw [candName, List.length_append, List.length_cons,
        padThree_length (by omega : j < 1000)]
      omega

theorem findMapping_append_self {mapping : List (List Char × List Char)}
    {a : List Char} (h : findMapping mapping a = none) (v : List Char) :
    findMapping (mapping ++ [(a, v)]) a = some v := by
  induction mapping with
  | nil =>
      rw [List.nil_append, findMapping, List.find?_cons_of_pos _ (by simp)]
      rfl
  | cons p m ih =>
      rw [findMapping] at h
      by_cases hp : p.1 = a
      · rw [List.find?_cons_of_pos _ (by simp [hp])] at h
        exact Option.noConfusion h
      · rw [List.find?_cons_of_neg _ (by simp [hp])] at h
        rw [List.cons_append, findMapping, List.find?_cons_of_neg _ (by simp [hp])]
        exact ih h

theorem findMapping_append_ne {mapping : List (List Char × List Char)}
    {a b : List Char} (hab : a ≠ b) (v : List Char) :
    findMapping (mapping ++ [(a, v)]) b = findMapping mapping b := by
  induction mapping with
  | nil =>
      rw [List.nil_append, findMapping,
        List.find?_cons_of_neg _ (by simp; exact hab)]
      rfl
  | cons p m ih =>
      by_cases hp : p.1 = b
      · rw [List.cons_append, findMapping, List.find?_cons_of_pos _ (by simp [hp]),
          findMapping, List.find?_cons_of_pos _ (by simp [hp])]
      · rw [List.cons_append, findMapping, List.find?_cons_of_neg _ (by simp [hp]),
          findMapping, List.find?_cons_of_neg _ (by simp [hp])]
        exact ih

theorem findMapping_mem {mapping : List (List Char × List Char)}
    {a v : List Char} (h : findMapping mapping a = some v) :
    ∃ p ∈ mapping, p.1 = a ∧ p.2 = v := by
  rw [findMapping] at h
  cases hf : mapping.find? (fun p => p.1 = a) with
  | none => rw [hf] at h; exact Option.noConfusion h
  | some p =>
      rw [hf] at h
      have hp1 := List.find?_some hf
      simp only [decide_eq_true_eq] at hp1
      refine ⟨p, List.mem_of_find?_eq_some hf, hp1, ?_⟩
      exact Option.some.inj h

theorem findMapping_eq_none_iff {mapping : List (List Char × List Char)}
    {a : List Char} :
    findMapping mapping a = none ↔ ∀ p ∈ mapping, p.1 ≠ a := by
  rw [findMapping, Option.map_eq_none', List.find?_eq_none]
  constructor
  · intro h p hp
    have := h p hp
    simpa using this
  · intro h p hp
    simpa using h p hp

theorem sane_name_hit {st : NameState} {name v : List Char}
    (h : findMapping st.name_mapping name = some v) :
    sane_name st name = (v, st) := by
  rw [sane_name, h]

theorem sane_name_miss {st : NameState} {name : List Char}
    (h : findMapping st.name_mapping name = none) :
    ∃ j, j ≤ st.name_unique.length ∧
      (sane_name st name).1 = candName ((asciiReplace name).take 12) j ∧
      (sane_name st name).1 ∉ st.name_unique ∧
      (sane_name st name).2
        = ⟨st.name_unique ++ [(sane_name st name).1],
           st.name_mapping ++ [(name, (sane_name st name).1)]⟩ := by
  obtain ⟨j, hj, hnm, heq⟩ :=
    saneLoop_fresh st.name_unique ((asciiReplace name).take 12)
  have h1 : (sane_name st name).1
      = saneLoop st.name_unique ((asciiReplace name).take 12)
          ((asciiReplace name).take 12) 0 (st.name_unique.length + 1) := by
    rw [sane_name, h]
  refine ⟨j, by omega, ?_, ?_, ?_⟩
  · rw [h1, heq]
  · rw [h1, heq]
    exact hnm
  · rw [sane_name, h]

theorem sane_name_inv {st : NameState} (hinv : SaneInv st) (name : List Char) :
    SaneInv (sane_name st name).2 := by
  obtain ⟨hsub, hnd, hfun, hasc, hlen⟩ := hinv
  cases h : findMapping st.name_mapping name with
  | some v =>
      rw [sane_name_hit h]
      exact ⟨hsub, hnd, hfun, hasc, hlen⟩
  | none =>
      obtain ⟨j, hj, hout, hnm, hst⟩ := sane_name_miss h
      rw [hst]
      refine ⟨?_, ?_, ?_, ?_, ?_⟩
      · intro p hp
        rcases List.mem_append.mp hp with hp | hp
        · exact List.mem_append_left _ (hsub p hp)
        · rw [List.mem_singleton.mp hp]
          exact List.mem_append_right _ (List.mem_singleton.mpr rfl)
      · rw [List.map_append, List.nodup_append]
        refine ⟨hnd, by simp, ?_⟩
        intro x hx hx2
        simp only [List.map_cons, List.map_nil, List.mem_singleton] at hx2
        rw [List.mem_map] at hx
        obtain ⟨p, hp, hpx⟩ := hx
        apply hnm
        rw [← hpx] at hx2
        rw [← hx2]
        exact hsub p hp
      · intro p hp q hq hpq
        rcases List.mem_append.mp hp with hp | hp <;>
          rcases List.mem_append.mp hq with hq | hq
        · exact hfun p hp q hq hpq
        · exfalso
          rw [List.mem_singleton.mp hq] at hpq
          exact (findMapping_eq_none_iff.mp h p hp) hpq
        · exfalso
          rw [List.mem_singleton.mp hp] at hpq
          exact (findMapping_eq_none_iff.mp h q hq) hpq.symm
        · rw [List.mem_singleton.mp hp, List.mem_singleton.mp hq]
      · intro v hv
        rcases List.mem_append.mp hv with hv | hv
        · exact hasc v hv
        · rw [List.mem_singleton.mp hv, hout]
          exact candName_ascii name j
      · intro hL v hv
        rw [List.length_append, List.length_singleton] at hL
        rcases List.mem_append.mp hv with hv | hv
        · exact hlen (by omega) v hv
        · rw [List.mem_singleton.mp hv, hout]
          exact candName_length (by omega)

/-- C6 counterexample: from a fresh session, sanitizing
`AAAAAAAAAAAAB` and then `AAAAAAAAAAAAC` (distinct 13-character names
that agree on their first 12 characters) maps the second name to
`AAAAAAAAAAAA.000`, 16 bytes long — refuting the claimed 12-byte
bound. -/
theorem claim6_counterexample :
    claimedMaxNameLen <
      ((sane_name (sane_name ⟨[], []⟩ "AAAAAAAAAAAAB".toList).2
          "AAAAAAAAAAAAC".toList).1).length := by
  decide

/-- C6 amended: within one export session the sanitizer maps names to
ASCII identifiers; a clean (collision-free) name is at most 12 bytes
but a collision rename appends `'.%.3d' % i`, so the guarantee is 16
bytes while at most 999 names were recorded before the call (and more
collisions can grow it further); two distinct input names still always
receive distinct outputs, and sanitizing the same input twice returns
the same output.  `SaneInv` holds of the empty session state and is
preserved by every call. -/
theorem claim6_amended_sane_name (st : NameState) (a b : List Char)
    (hinv : SaneInv st) (hab : a ≠ b) :
    (sane_name st a).1 ≠ (sane_name (sane_name st a).2 b).1 ∧
    (sane_name (sane_name st a).2 a).1 = (sane_name st a).1 ∧
    (∀ ch ∈ (sane_name st a).1, ch.toNat ≤ 127) ∧
    (st.name_unique.length ≤ 999 → ((sane_name st a).1).length ≤ 16) ∧
    SaneInv (sane_name st a).2 := by
  obtain ⟨hsub, hnd, hfun, hasc, hlen⟩ := hinv
  refine ⟨?_, ?_, ?_, ?_, sane_name_inv ⟨hsub, hnd, hfun, hasc, hlen⟩ a⟩
  · cases h : findMapping st.name_mapping a with
    | some v =>
        rw [sane_name_hit h]
        obtain ⟨p, hp, hp1, hp2⟩ := findMapping_mem h
        cases h2 : findMapping st.name_mapping b with
        | some w =>
            rw [sane_name_hit h2]
            obtain ⟨q, hq, hq1, hq2⟩ := findMapping_mem h2
            intro hvw
            apply hab
            rw [← hp1, ← hq1]
            have hpq : p = q :=
              List.inj_on_of_nodup_map hnd hp hq (by rw [hp2, hq2]; exact hvw)
            rw [hpq]
        | none =>
            obtain ⟨j, hj, hout, hnm2, hst2⟩ := sane_name_miss h2
            intro hvw
            apply hnm2
            rw [← hvw, ← hp2]
            exact hsub p hp
    | none =>
        obtain ⟨j, hj, hout, hnm, hst⟩ := sane_name_miss h
        have hfa : (sane_name st a).1 ∈ (sane_name st a).2.name_unique := by
          rw [hst]
          exact List.mem_append_right _ (List.mem_singleton.mpr rfl)
        have hmap2 : findMapping (sane_name st a).2.name_mapping b
            = findMapping st.name_mapping b := by
          rw [hst]
          exact findMapping_append_ne hab _
        cases h2 : findMapping st.name_mapping b with
        | some w =>
            rw [sane_name_hit (hmap2.trans h2)]
            obtain ⟨q, hq, hq1, hq2⟩ := findMapping_mem h2
            intro hvw
            apply hnm
            rw [hvw, ← hq2]
            exact hsub q hq
        | none =>
            obtain ⟨j2, hj2, hout2, hnm2, hst2⟩ :=
              @sane_name_miss (sane_name st a).2 b (hmap2.trans h2)
            intro hvw
            apply hnm2
            rw [← hvw]
            exact hfa
  · cases h : findMapping st.name_mapping a with
    | some v =>
        rw [sane_name_hit h, sane_name_hit h]
    | none =>
        obtain ⟨j, hj, hout, hnm, hst⟩ := sane_name_miss h
        have hfind : findMapping (sane_name st a).2.name_mapping a
            = some (sane_name st a).1 := by
          rw [hst]
          exact findMapping_append_self h _
        rw [sane_name_hit hfind]
  · cases h : findMapping st.name_mapping a with
    | some v =>
        rw [sane_name_hit h]
        obtain ⟨p, hp, hp1, hp2⟩ := findMapping_mem h
        rw [← hp2]
        exact hasc p.2 (hsub p hp)
    | none =>
        obtain ⟨j, hj, hout, hnm, hst⟩ := sane_name_miss h
        rw [hout]
        exact candName_ascii a j
  · intro hL
    cases h : findMapping st.name_mapping a with
    | some v =>
        rw [sane_name_hit h]
        obtain ⟨p, hp, hp1, hp2⟩ := findMapping_mem h
        rw [← hp2]
        exact hlen (by omega) p.2 (hsub p hp)
    | none =>
        obtain ⟨j, hj, hout, hnm, hst⟩ := sane_name_miss h
        rw [hout]
        exact candName_length (by omega)

theorem saneInv_empty : SaneInv ⟨[], []⟩ := by
  refine ⟨?_, ?_, ?_, ?_, ?_⟩ <;> simp

/-- Witness for the amended C6: from the empty session state,
sanitizing `A` and then `B` yields distinct outputs. -/
theorem claim6_amended_witness :
    (sane_name ⟨[], []⟩ ['A']).1
      ≠ (sane_name (sane_name ⟨[], []⟩ ['A']).2 ['B']).1 :=
  (claim6_amended_sane_name ⟨[], []⟩ ['A'] ['B'] saneInv_empty (by decide)).1

end ThreeDS
